import Mathlib

/-!
Shallow embedding of the quote-ingestion engine of `pyquote.py`
(`StockQuoteUpdater`): symbol resolution, 7-day-chunked windowed fetching,
dedup/insert of quotes, freshness update, and the orchestrating `run`,
together with proofs of the specified properties.

Modelling conventions:
* Timestamps are `Int` seconds; `timedelta(days = d)` is `d * 86400`.
* `datetime.now()` is a clock read: the environment carries `clockAt : Nat → Int`
  and the state carries a tick counter that advances at each read.
* The MySQL store is a pure `DB` value: `stocks` and `quotes` tables as lists,
  with `nextStockId` modelling the auto-increment id returned by `lastrowid`.
* yFinance is the environment: `info` models `yf.Ticker(t).info` (`none` when
  `info is None`), `download` models `yf.download` over a `[start, end)`
  sub-window and may fail with a transport error.
* Python exceptions are an explicit `Except` result threaded with the state,
  so that partial mutations made before a raise are preserved, as in Python.
-/

namespace PyQuote

/-- A row of the `quotes` table: `(stock, price, timestamp)`. -/
structure Quote where
  stock : Nat
  price : String
  timestamp : Int
  deriving Repr, DecidableEq

/-- A row of the `stocks` table: `(id, ticker, name, lastUpdate)`. -/
structure StockRow where
  id : Nat
  ticker : String
  name : String
  lastUpdate : Option Int
  deriving Repr, DecidableEq

/-- The relational store: both tables plus the auto-increment counter that
models the id the store assigns to a newly inserted stock row. -/
structure DB where
  stocks : List StockRow
  quotes : List Quote
  nextStockId : Nat
  deriving Repr, DecidableEq

/-- The result of `yf.Ticker(t).info`: the fields the engine reads.
`symbol = none` models `info.get('symbol') is None` (invalid ticker);
`longName = none` models a missing `longName` key. -/
structure ProviderInfo where
  symbol : Option String
  longName : Option String
  deriving Repr, DecidableEq

/-- Errors raised by the engine (Python exceptions). -/
inductive IngestError where
  | unknownSymbol (ticker : String)
  | providerTransport
  deriving Repr, DecidableEq

/-- The external world: database connectivity, the wall clock, and yFinance.
`info t = none` models `yf.Ticker(t).info is None`. -/
structure Env where
  connectOk : Bool
  clockAt : Nat → Int
  info : String → Option ProviderInfo
  download : String → Int → Int → Except Unit (List (Int × ℚ))

/-- Mutable state of one `StockQuoteUpdater` run: the store, the clock tick
counter, the provider calls made (observables for the window claims), and the
`quotes_inserted` / `quotes_skipped` dictionaries. -/
structure IngestState where
  db : DB
  tick : Nat
  windowsUsed : List (Int × Int)
  downloadCalls : List (String × Int × Int)
  quotesInserted : List (String × Nat)
  quotesSkipped : List (String × Nat)
  deriving Repr, DecidableEq

/-- `SELECT id FROM stocks WHERE ticker = %s` (first matching row). -/
def lookupStock (db : DB) (ticker : String) : Option StockRow :=
  db.stocks.find? (fun r => r.ticker == ticker)

/-- `_get_stock_id`: look the ticker up in `stocks`; on a miss validate it
with yFinance (`info is None or info.get('symbol') is None` raises), read
`info.get('longName', ticker)` and insert a `(ticker, name)` row, returning
`cursor.lastrowid`. -/
def _get_stock_id (env : Env) (ticker : String) (db : DB) :
    Except IngestError Nat × DB :=
  match lookupStock db ticker with
  | some r => (.ok r.id, db)
  | none =>
    match env.info ticker with
    | none => (.error (.unknownSymbol ticker), db)
    | some i =>
      match i.symbol with
      | none => (.error (.unknownSymbol ticker), db)
      | some _ =>
        let company_name := i.longName.getD ticker
        let new_id := db.nextStockId
        (.ok new_id,
          { db with
            stocks := db.stocks ++ [⟨new_id, ticker, company_name, none⟩],
            nextStockId := new_id + 1 })

/-- `_quote_exists`: `SELECT id FROM quotes WHERE stock = %s AND timestamp = %s`
is non-empty. -/
def _quote_exists (db : DB) (stock_id : Nat) (timestamp : Int) : Bool :=
  db.quotes.any (fun q => q.stock == stock_id && q.timestamp == timestamp)

/-- The core consistency invariant of the `quotes` table: no two rows share
the `(stock, timestamp)` key. -/
def keysUnique : List Quote → Bool
  | [] => true
  | q :: rest =>
    !(rest.any (fun q2 => q2.stock == q.stock && q2.timestamp == q.timestamp))
      && keysUnique rest

/-- `_insert_quote`: `INSERT INTO quotes (stock, price, timestamp) VALUES …`. -/
def _insert_quote (db : DB) (stock_id : Nat) (price : String) (timestamp : Int) :
    DB :=
  { db with quotes := db.quotes ++ [⟨stock_id, price, timestamp⟩] }

/-- `SELECT MAX(timestamp) FROM quotes WHERE stock = %s` (`none` when the
symbol has no quotes, modelling the NULL aggregate). -/
def maxQuoteTimestamp (db : DB) (stock_id : Nat) : Option Int :=
  (db.quotes.filterMap
    (fun q => if q.stock = stock_id then some q.timestamp else none)).max?

/-- `_update_stock_last_update`: read the max quote timestamp for the stock;
if NULL do nothing, otherwise `UPDATE stocks SET lastUpdate = %s WHERE id = %s`. -/
def _update_stock_last_update (db : DB) (stock_id : Nat) : DB :=
  match maxQuoteTimestamp db stock_id with
  | none => db
  | some m =>
    { db with
      stocks := db.stocks.map
        (fun r => if r.id = stock_id then { r with lastUpdate := some m } else r) }

/-- The number of cents of `q`, rounding half to even as IEEE-754 binary
formatting does (Python's `f"{x:.2f}"`); the provider's exact decimal values
are modelled as rationals, so `q * 100 = (q.num * 100) / q.den` exactly, with
`Int.ediv`/`Int.emod` giving the floor and the nonnegative remainder. -/
def roundCentsHalfToEven (q : ℚ) : Int :=
  let num := q.num * 100
  let den : Int := (q.den : Int)
  let fl := num.ediv den
  let r := num.emod den
  if 2 * r < den then fl
  else if 2 * r > den then fl + 1
  else if fl.emod 2 = 0 then fl else fl + 1

/-- Left-pad a number below 100 to two digits. -/
def pad2 (n : Nat) : String :=
  if n < 10 then "0" ++ toString n else toString n

/-- `price = f"{float(close_price):.2f}"` for a nonnegative raw price:
round to a whole number of cents and print with exactly two digits after
the decimal point. -/
def formatPrice (q : ℚ) : String :=
  let cents := (roundCentsHalfToEven q).toNat
  toString (cents / 100) ++ "." ++ pad2 (cents % 100)

/-- `timedelta(days=7)`, in seconds. -/
def chunkSeconds : Int := 7 * 86400

/-- Fuel-indexed unfolding of the `while current_start < end_date` loop; the
loop advances `current_start` by at least one second per iteration, so
`(end_date - current_start).toNat` iterations always suffice
(see `chunkWindows_eq` for the loop-shaped unfolding). -/
def chunkWindowsGo : Nat → Int → Int → List (Int × Int)
  | 0, _, _ => []
  | fuel + 1, current_start, end_date =>
    if current_start < end_date then
      let current_end := min (current_start + chunkSeconds) end_date
      (current_start, current_end) :: chunkWindowsGo fuel current_end end_date
    else []

/-- The successive `[current_start, current_end)` sub-windows produced by the
`while current_start < end_date` loop of `_fetch_quotes`, with
`current_end = min(current_start + timedelta(days=7), end_date)`. -/
def chunkWindows (current_start end_date : Int) : List (Int × Int) :=
  chunkWindowsGo (end_date - current_start).toNat current_start end_date

/-- The body of `for timestamp, row in data.iterrows()`: dedup-check each
point and either count it skipped or insert its formatted price and count it
inserted. Returns `(inserted, skipped, db)` deltas for the chunk. -/
def processPoints (stock_id : Nat) : List (Int × ℚ) → DB → Nat × Nat × DB
  | [], db => (0, 0, db)
  | (ts, raw) :: rest, db =>
    if _quote_exists db stock_id ts then
      let r := processPoints stock_id rest db
      (r.1, r.2.1 + 1, r.2.2)
    else
      let db1 := _insert_quote db stock_id (formatPrice raw) ts
      let r := processPoints stock_id rest db1
      (r.1 + 1, r.2.1, r.2.2)

/-- The chunk loop of `_fetch_quotes`: for each sub-window call
`yf.download` (recorded in `downloadCalls`), abort on a transport failure,
otherwise process the returned points and accumulate the counters. -/
def processChunks (env : Env) (ticker : String) (stock_id : Nat) :
    List (Int × Int) → Nat → Nat → IngestState →
    Except IngestError (Nat × Nat) × IngestState
  | [], ins, skp, st => (.ok (ins, skp), st)
  | w :: ws, ins, skp, st =>
    let st1 := { st with downloadCalls := st.downloadCalls ++ [(ticker, w.1, w.2)] }
    match env.download ticker w.1 w.2 with
    | .error _ => (.error .providerTransport, st1)
    | .ok pts =>
      let r := processPoints stock_id pts st1.db
      processChunks env ticker stock_id ws (ins + r.1) (skp + r.2.1)
        { st1 with db := r.2.2 }

/-- The number of points `yf.download` yields for one sub-window (zero when
the result is empty or the call fails). -/
def downloadLen (env : Env) (ticker : String) (w : Int × Int) : Nat :=
  match env.download ticker w.1 w.2 with
  | .ok pts => pts.length
  | .error _ => 0

/-- Overwrite-or-append update of the `quotes_inserted` / `quotes_skipped`
dictionaries. -/
def setAssoc (m : List (String × Nat)) (k : String) (v : Nat) :
    List (String × Nat) :=
  match m with
  | [] => [(k, v)]
  | (k0, v0) :: rest =>
    if k0 = k then (k, v) :: rest else (k0, v0) :: setAssoc rest k v

/-- Dictionary lookup. -/
def getAssoc (m : List (String × Nat)) (k : String) : Option Nat :=
  match m with
  | [] => none
  | (k0, v0) :: rest => if k0 = k then some v0 else getAssoc rest k

/-- The state right after `_fetch_quotes` reads the clock: the store after
symbol resolution, the advanced clock tick, and the recorded lookback window. -/
def windowState (st : IngestState) (db1 : DB) (start_date end_date : Int) :
    IngestState :=
  { st with
    db := db1, tick := st.tick + 1,
    windowsUsed := st.windowsUsed ++ [(start_date, end_date)] }

/-- `_fetch_quotes`: resolve the stock id, take `end_date = datetime.now()`
and `start_date = end_date - timedelta(days=lookback_days)`, run the 7-day
chunk loop, record the ticker's counters, and refresh `lastUpdate`. -/
def _fetch_quotes (env : Env) (lookback_days : Nat) (ticker : String)
    (st : IngestState) : Except IngestError Unit × IngestState :=
  match _get_stock_id env ticker st.db with
  | (.error e, db1) => (.error e, { st with db := db1 })
  | (.ok stock_id, db1) =>
    let end_date := env.clockAt st.tick
    let start_date := end_date - (lookback_days : Int) * 86400
    let st1 := windowState st db1 start_date end_date
    match processChunks env ticker stock_id
        (chunkWindows start_date end_date) 0 0 st1 with
    | (.error e, st2) => (.error e, st2)
    | (.ok (ins, skp), st2) =>
      (.ok (),
        { st2 with
          quotesInserted := setAssoc st2.quotesInserted ticker ins,
          quotesSkipped := setAssoc st2.quotesSkipped ticker skp,
          db := _update_stock_last_update st2.db stock_id })

/-- The `for ticker in self.tickers` loop of `run`: process tickers in order,
stopping at the first raised exception. -/
def runTickers (env : Env) (lookback_days : Nat) :
    List String → IngestState → Except IngestError Unit × IngestState
  | [], st => (.ok (), st)
  | t :: ts, st =>
    match _fetch_quotes env lookback_days t st with
    | (.error e, st1) => (.error e, st1)
    | (.ok _, st1) => runTickers env lookback_days ts st1

/-- Connection lifecycle events observable from `run`. -/
inductive RunEvent where
  | connOpened
  | connClosed
  deriving Repr, DecidableEq

/-- `run`'s observable outcome: normal return versus `sys.exit(1)`. -/
inductive RunOutcome where
  | success
  | exitFailure
  deriving Repr, DecidableEq

/-- `_disconnect_from_database`: close the connection only when it is
currently open. -/
def _disconnect_from_database (connected : Bool) : List RunEvent :=
  if connected then [.connClosed] else []

/-- `run`: connect, process every ticker, and in all cases (success, a raised
exception turned into `sys.exit(1)`, or a failed connect) run the `finally`
block that disconnects. Returns the outcome, the final state and the
connection-event trace. -/
def run (env : Env) (lookback_days : Nat) (tickers : List String)
    (st : IngestState) : RunOutcome × IngestState × List RunEvent :=
  if env.connectOk then
    match runTickers env lookback_days tickers st with
    | (.ok _, st1) =>
      (.success, st1, [.connOpened] ++ _disconnect_from_database true)
    | (.error _, st1) =>
      (.exitFailure, st1, [.connOpened] ++ _disconnect_from_database true)
  else
    (.exitFailure, st, _disconnect_from_database false)

/-- The property §4.5 of the specification asserts: the lookback window is
computed once per run, from a single `now` read at run start, and that same
window is used for every ticker of the run. -/
def windowOncePerRun (env : Env) (lookback_days : Nat) (tickers : List String)
    (st : IngestState) : Prop :=
  ∀ w ∈ (run env lookback_days tickers st).2.1.windowsUsed,
    w = (env.clockAt st.tick - (lookback_days : Int) * 86400, env.clockAt st.tick)

/-! ### Concrete fixtures (used to instantiate the theorems) -/

/-- An empty store. -/
def emptyDB : DB := { stocks := [], quotes := [], nextStockId := 1 }

/-- The initial state of a run over an empty store. -/
def st0 : IngestState :=
  { db := emptyDB, tick := 0, windowsUsed := [], downloadCalls := [],
    quotesInserted := [], quotesSkipped := [] }

/-- A healthy environment: every ticker is valid (with no `longName`), every
download succeeds with no points, and the clock advances one second per read. -/
def envA : Env :=
  { connectOk := true
    clockAt := fun n => (n : Int)
    info := fun _ => some { symbol := some "X", longName := none }
    download := fun _ _ _ => .ok [] }

/-- An environment in which yFinance knows no ticker at all. -/
def envInvalid : Env :=
  { connectOk := true
    clockAt := fun n => (n : Int)
    info := fun _ => none
    download := fun _ _ _ => .ok [] }

/-! ### Lemmas about the 7-day chunking loop -/

lemma chunkWindowsGo_fuel_eq :
    ∀ (f1 f2 : Nat) (cur e : Int), (e - cur).toNat ≤ f1 → (e - cur).toNat ≤ f2 →
      chunkWindowsGo f1 cur e = chunkWindowsGo f2 cur e := by
  intro f1
  induction f1 with
  | zero =>
    intro f2 cur e h1 h2
    have hlt : ¬ cur < e := by omega
    cases f2 with
    | zero => rfl
    | succ f2 => simp [chunkWindowsGo, hlt]
  | succ f1 ih =>
    intro f2 cur e h1 h2
    cases f2 with
    | zero =>
      have hlt : ¬ cur < e := by omega
      simp [chunkWindowsGo, hlt]
    | succ f2 =>
      simp only [chunkWindowsGo]
      split
      next h =>
        have hrec := ih f2 (min (cur + chunkSeconds) e) e
          (by simp only [chunkSeconds] at *; omega)
          (by simp only [chunkSeconds] at *; omega)
        rw [hrec]
      next h => rfl

/-- The loop-shaped unfolding of `chunkWindows`: exactly the structure of the
`while current_start < end_date` loop in `_fetch_quotes`. -/
lemma chunkWindows_eq (cur e : Int) :
    chunkWindows cur e =
      if cur < e then
        (cur, min (cur + chunkSeconds) e)
          :: chunkWindows (min (cur + chunkSeconds) e) e
      else [] := by
  unfold chunkWindows
  by_cases h : cur < e
  · obtain ⟨d, hd⟩ : ∃ d, (e - cur).toNat = d + 1 := ⟨(e - cur).toNat - 1, by omega⟩
    rw [hd]
    simp only [chunkWindowsGo, if_pos h]
    rw [chunkWindowsGo_fuel_eq d ((e - min (cur + chunkSeconds) e).toNat)
      (min (cur + chunkSeconds) e) e
      (by simp only [chunkSeconds] at *; omega) (le_refl _)]
  · have hz : (e - cur).toNat = 0 := by omega
    rw [hz]
    simp [chunkWindowsGo, h]

lemma chunkWindows_length (cur e : Int) :
    (chunkWindows cur e).length = ((e - cur).toNat + 604799) / 604800 := by
  generalize hn : (e - cur).toNat = n
  induction n using Nat.strong_induction_on generalizing cur with
  | _ n ih =>
    rw [chunkWindows_eq]
    split
    next h =>
      rw [List.length_cons,
        ih ((e - min (cur + chunkSeconds) e).toNat)
          (by simp only [chunkSeconds] at *; omega) _ rfl]
      simp only [chunkSeconds] at *
      omega
    next h =>
      simp only [List.length_nil]
      omega

lemma chunkWindows_cover (cur e t : Int) :
    (∃ c ∈ chunkWindows cur e, c.1 ≤ t ∧ t < c.2) ↔ (cur ≤ t ∧ t < e) := by
  generalize hn : (e - cur).toNat = n
  induction n using Nat.strong_induction_on generalizing cur with
  | _ n ih =>
    rw [chunkWindows_eq]
    split
    next h =>
      rw [List.exists_mem_cons_iff,
        ih ((e - min (cur + chunkSeconds) e).toNat)
          (by simp only [chunkSeconds] at *; omega) _ rfl]
      simp only [chunkSeconds] at *
      omega
    next h =>
      constructor
      · rintro ⟨c, hc, -⟩
        exact absurd hc (List.not_mem_nil c)
      · intro ht
        exact absurd (lt_of_le_of_lt ht.1 ht.2) h

lemma chunkWindows_bounds (cur e : Int) :
    ∀ c ∈ chunkWindows cur e, cur ≤ c.1 ∧ c.1 < c.2 ∧ c.2 ≤ e := by
  generalize hn : (e - cur).toNat = n
  induction n using Nat.strong_induction_on generalizing cur with
  | _ n ih =>
    rw [chunkWindows_eq]
    split
    next h =>
      intro c hc
      rcases List.mem_cons.mp hc with hc | hc
      · subst hc
        simp only [chunkSeconds] at *
        refine ⟨le_refl _, by omega, by omega⟩
      · have := ih ((e - min (cur + chunkSeconds) e).toNat)
          (by simp only [chunkSeconds] at *; omega) _ rfl c hc
        simp only [chunkSeconds] at *
        omega
    next h =>
      intro c hc
      simp at hc

lemma chunkWindows_shape (cur e : Int) :
    ∀ c ∈ chunkWindows cur e, c.2 = min (c.1 + chunkSeconds) e := by
  generalize hn : (e - cur).toNat = n
  induction n using Nat.strong_induction_on generalizing cur with
  | _ n ih =>
    rw [chunkWindows_eq]
    split
    next h =>
      intro c hc
      rcases List.mem_cons.mp hc with hc | hc
      · subst hc; rfl
      · exact ih ((e - min (cur + chunkSeconds) e).toNat)
          (by simp only [chunkSeconds] at *; omega) _ rfl c hc
    next h =>
      intro c hc
      simp at hc

lemma chunkWindows_chain (cur e : Int) :
    List.Chain' (fun a b : Int × Int => a.2 = b.1) (chunkWindows cur e) := by
  generalize hn : (e - cur).toNat = n
  induction n using Nat.strong_induction_on generalizing cur with
  | _ n ih =>
    rw [chunkWindows_eq]
    split
    next h =>
      rw [List.chain'_cons']
      constructor
      · intro y hy
        rw [chunkWindows_eq] at hy
        split at hy
        · simp only [List.head?_cons, Option.mem_def, Option.some.injEq] at hy
          subst hy
          rfl
        · simp at hy
      · exact ih ((e - min (cur + chunkSeconds) e).toNat)
          (by simp only [chunkSeconds] at *; omega) _ rfl
    next h => exact List.chain'_nil

lemma chunkWindows_pairwise (cur e : Int) :
    (chunkWindows cur e).Pairwise (fun a b : Int × Int => a.2 ≤ b.1) := by
  generalize hn : (e - cur).toNat = n
  induction n using Nat.strong_induction_on generalizing cur with
  | _ n ih =>
    rw [chunkWindows_eq]
    split
    next h =>
      rw [List.pairwise_cons]
      constructor
      · intro b hb
        exact (chunkWindows_bounds _ _ b hb).1
      · exact ih ((e - min (cur + chunkSeconds) e).toNat)
          (by simp only [chunkSeconds] at *; omega) _ rfl
    next h => exact List.Pairwise.nil

/-! ### Lemmas about the dedup/insert point loop -/

lemma processPoints_count (sid : Nat) :
    ∀ (pts : List (Int × ℚ)) (db : DB),
      (processPoints sid pts db).1 + (processPoints sid pts db).2.1 = pts.length := by
  intro pts
  induction pts with
  | nil => intro db; simp [processPoints]
  | cons p rest ih =>
    intro db
    obtain ⟨ts, raw⟩ := p
    simp only [processPoints]
    split
    · have := ih db
      simp only [List.length_cons]
      omega
    · have := ih (_insert_quote db sid (formatPrice raw) ts)
      simp only [List.length_cons]
      omega

lemma processPoints_quotes_extend (sid : Nat) :
    ∀ (pts : List (Int × ℚ)) (db : DB),
      ∃ l, (processPoints sid pts db).2.2.quotes = db.quotes ++ l := by
  intro pts
  induction pts with
  | nil => intro db; exact ⟨[], by simp [processPoints]⟩
  | cons p rest ih =>
    intro db
    obtain ⟨ts, raw⟩ := p
    simp only [processPoints]
    split
    · exact ih db
    · obtain ⟨l, hl⟩ := ih (_insert_quote db sid (formatPrice raw) ts)
      refine ⟨⟨sid, formatPrice raw, ts⟩ :: l, ?_⟩
      show (processPoints sid rest (_insert_quote db sid (formatPrice raw) ts)).2.2.quotes
        = db.quotes ++ ⟨sid, formatPrice raw, ts⟩ :: l
      simp only [_insert_quote] at hl ⊢
      rw [hl]
      simp

lemma _quote_exists_extend {db db' : DB} {l : List Quote} {sid : Nat} {ts : Int}
    (hq : db'.quotes = db.quotes ++ l) (h : _quote_exists db sid ts = true) :
    _quote_exists db' sid ts = true := by
  unfold _quote_exists at h ⊢
  rw [hq, List.any_append, h, Bool.true_or]

lemma processPoints_exists_after (sid : Nat) :
    ∀ (pts : List (Int × ℚ)) (db : DB), ∀ p ∈ pts,
      _quote_exists (processPoints sid pts db).2.2 sid p.1 = true := by
  intro pts
  induction pts with
  | nil => intro db p hp; simp at hp
  | cons q rest ih =>
    intro db p hp
    obtain ⟨ts, raw⟩ := q
    simp only [processPoints]
    split
    next hex =>
      rcases List.mem_cons.mp hp with hp | hp
      · subst hp
        obtain ⟨l, hl⟩ := processPoints_quotes_extend sid rest db
        exact _quote_exists_extend hl hex
      · exact ih db p hp
    next hex =>
      rcases List.mem_cons.mp hp with hp | hp
      · subst hp
        obtain ⟨l, hl⟩ :=
          processPoints_quotes_extend sid rest (_insert_quote db sid (formatPrice raw) ts)
        refine _quote_exists_extend hl ?_
        simp [_quote_exists, _insert_quote, List.any_append]
      · exact ih (_insert_quote db sid (formatPrice raw) ts) p hp

lemma processPoints_all_exist (sid : Nat) :
    ∀ (pts : List (Int × ℚ)) (db : DB),
      (∀ p ∈ pts, _quote_exists db sid p.1 = true) →
      processPoints sid pts db = (0, pts.length, db) := by
  intro pts
  induction pts with
  | nil => intro db _; simp [processPoints]
  | cons q rest ih =>
    intro db h
    obtain ⟨ts, raw⟩ := q
    have hex : _quote_exists db sid ts = true := h (ts, raw) (List.mem_cons_self _ _)
    simp only [processPoints, hex, if_true]
    rw [ih db (fun p hp => h p (List.mem_cons_of_mem _ hp))]
    rfl

lemma keysUnique_iff (l : List Quote) :
    keysUnique l = true ↔
      l.Pairwise (fun a b : Quote => ¬(b.stock = a.stock ∧ b.timestamp = a.timestamp)) := by
  induction l with
  | nil => simp [keysUnique]
  | cons q rest ih =>
    simp only [keysUnique, Bool.and_eq_true, Bool.not_eq_true', List.any_eq_false,
      beq_iff_eq, List.pairwise_cons, ih, not_and]

lemma processPoints_keysUnique (sid : Nat) :
    ∀ (pts : List (Int × ℚ)) (db : DB),
      keysUnique db.quotes = true →
      keysUnique (processPoints sid pts db).2.2.quotes = true := by
  intro pts
  induction pts with
  | nil => intro db h; simpa [processPoints] using h
  | cons q rest ih =>
    intro db h
    obtain ⟨ts, raw⟩ := q
    simp only [processPoints]
    split
    next hex => exact ih db h
    next hex =>
      refine ih (_insert_quote db sid (formatPrice raw) ts) ?_
      rw [keysUnique_iff] at h ⊢
      simp only [_insert_quote, List.pairwise_append, List.pairwise_cons]
      refine ⟨h, by simp, ?_⟩
      intro a ha b hb
      simp only [List.mem_singleton] at hb
      subst hb
      simp only [_quote_exists, Bool.not_eq_true, List.any_eq_false,
        Bool.and_eq_true, beq_iff_eq, not_and] at hex
      intro hc
      exact hex a ha hc.1.symm hc.2.symm

/-! ### Lemmas about the per-chunk loop and the counter dictionaries -/

lemma processChunks_ok_count (env : Env) (ticker : String) (sid : Nat) :
    ∀ (ws : List (Int × Int)) (ins skp : Nat) (st : IngestState)
      (ins2 skp2 : Nat) (st' : IngestState),
      processChunks env ticker sid ws ins skp st = (.ok (ins2, skp2), st') →
      ins2 + skp2 = ins + skp + (ws.map (downloadLen env ticker)).sum := by
  intro ws
  induction ws with
  | nil =>
    intro ins skp st ins2 skp2 st' h
    simp only [processChunks, Prod.mk.injEq, Except.ok.injEq] at h
    obtain ⟨⟨h1, h2⟩, -⟩ := h
    simp [← h1, ← h2]
  | cons w ws ih =>
    intro ins skp st ins2 skp2 st' h
    simp only [processChunks] at h
    cases hdl : env.download ticker w.1 w.2 with
    | error e => rw [hdl] at h; simp at h
    | ok pts =>
      rw [hdl] at h
      have hrec := ih _ _ _ _ _ _ h
      have hc := processPoints_count sid pts st.db
      simp only [List.map_cons, List.sum_cons, downloadLen, hdl]
      omega

lemma processChunks_ok_downloadCalls (env : Env) (ticker : String) (sid : Nat) :
    ∀ (ws : List (Int × Int)) (ins skp : Nat) (st : IngestState)
      (r : Nat × Nat) (st' : IngestState),
      processChunks env ticker sid ws ins skp st = (.ok r, st') →
      st'.downloadCalls = st.downloadCalls ++ ws.map (fun w => (ticker, w.1, w.2)) := by
  intro ws
  induction ws with
  | nil =>
    intro ins skp st r st' h
    simp only [processChunks, Prod.mk.injEq] at h
    rw [← h.2]
    simp
  | cons w ws ih =>
    intro ins skp st r st' h
    simp only [processChunks] at h
    cases hdl : env.download ticker w.1 w.2 with
    | error e => rw [hdl] at h; simp at h
    | ok pts =>
      rw [hdl] at h
      have hrec := ih _ _ _ _ _ h
      simp only [List.map_cons] at hrec ⊢
      rw [hrec]
      simp

lemma processChunks_windowsUsed (env : Env) (ticker : String) (sid : Nat) :
    ∀ (ws : List (Int × Int)) (ins skp : Nat) (st : IngestState),
      ((processChunks env ticker sid ws ins skp st).2).windowsUsed = st.windowsUsed := by
  intro ws
  induction ws with
  | nil => intro ins skp st; rfl
  | cons w ws ih =>
    intro ins skp st
    simp only [processChunks]
    cases hdl : env.download ticker w.1 w.2 with
    | error e => rfl
    | ok pts => exact ih _ _ _

lemma getAssoc_setAssoc (m : List (String × Nat)) (k : String) (v : Nat) :
    getAssoc (setAssoc m k v) k = some v := by
  induction m with
  | nil => simp [setAssoc, getAssoc]
  | cons p rest ih =>
    obtain ⟨k0, v0⟩ := p
    simp only [setAssoc]
    split
    · simp [getAssoc]
    next hne => simp only [getAssoc, if_neg hne, ih]

lemma pad2_good :
    ∀ n < 100, (pad2 n).length = 2 ∧ (pad2 n).data.all Char.isDigit = true := by
  decide

/-! ### The specified properties -/

/-- C1: a point whose (identifier, timestamp) key is already stored is skipped
with no write, so re-processing the same points against the store produced by a
first run inserts nothing: the second run reports 0 inserted and one skip per
point, leaves the store unchanged, and key-uniqueness of the quotes table is
preserved by any run. -/
theorem second_run_inserts_nothing (sid : Nat) (pts : List (Int × ℚ)) (db : DB) :
    processPoints sid pts (processPoints sid pts db).2.2
        = (0, pts.length, (processPoints sid pts db).2.2)
      ∧ (keysUnique db.quotes = true →
          keysUnique (processPoints sid pts db).2.2.quotes = true) :=
  ⟨processPoints_all_exist sid pts _
      (fun p hp => processPoints_exists_after sid pts db p hp),
    processPoints_keysUnique sid pts db⟩

/-- C1 witness: concrete instance, with the key-uniqueness hypothesis
discharged on the empty store. -/
theorem second_run_inserts_nothing_witness :
    processPoints 7 [(930, (3 : ℚ))] (processPoints 7 [(930, (3 : ℚ))] emptyDB).2.2
        = (0, 1, (processPoints 7 [(930, (3 : ℚ))] emptyDB).2.2)
      ∧ keysUnique (processPoints 7 [(930, (3 : ℚ))] emptyDB).2.2.quotes = true :=
  ⟨(second_run_inserts_nothing 7 [(930, (3 : ℚ))] emptyDB).1,
    (second_run_inserts_nothing 7 [(930, (3 : ℚ))] emptyDB).2 (by decide)⟩

/-- C2: for a lookback of `L` days, `1 ≤ L ≤ 28`, the chunk loop produces
exactly `⌈L/7⌉` sub-windows; their `[start, end)` ranges exactly cover
`[now - L days, now)` (a time is in some chunk iff it is in the window),
consecutive chunks share their boundary, each chunk is 7 days truncated at the
window end, the chunks do not overlap beyond shared boundaries, and a fully
successful chunk loop issues exactly one provider download call per chunk. -/
theorem chunk_coverage (L : Nat) (now : Int) (h1 : 1 ≤ L) (h2 : L ≤ 28) :
    (chunkWindows (now - (L : Int) * 86400) now).length = (L + 6) / 7
    ∧ (∀ t : Int,
        (∃ c ∈ chunkWindows (now - (L : Int) * 86400) now, c.1 ≤ t ∧ t < c.2)
          ↔ (now - (L : Int) * 86400 ≤ t ∧ t < now))
    ∧ List.Chain' (fun a b : Int × Int => a.2 = b.1)
        (chunkWindows (now - (L : Int) * 86400) now)
    ∧ (∀ c ∈ chunkWindows (now - (L : Int) * 86400) now,
        c.2 = min (c.1 + chunkSeconds) now)
    ∧ (chunkWindows (now - (L : Int) * 86400) now).Pairwise
        (fun a b : Int × Int => a.2 ≤ b.1)
    ∧ (∀ (env : Env) (ticker : String) (sid : Nat) (st : IngestState)
        (r : Nat × Nat) (st' : IngestState),
        processChunks env ticker sid (chunkWindows (now - (L : Int) * 86400) now)
            0 0 st = (.ok r, st') →
        st'.downloadCalls = st.downloadCalls
          ++ (chunkWindows (now - (L : Int) * 86400) now).map
              (fun w => (ticker, w.1, w.2))) := by
  refine ⟨?_, ?_, chunkWindows_chain _ _, chunkWindows_shape _ _,
    chunkWindows_pairwise _ _, ?_⟩
  · rw [chunkWindows_length]
    omega
  · intro t
    exact chunkWindows_cover _ _ t
  · intro env ticker sid st r st' h
    exact processChunks_ok_downloadCalls env ticker sid _ 0 0 st r st' h

/-- C2 witness: a 10-day lookback yields `⌈10/7⌉ = 2` chunks. -/
theorem chunk_coverage_witness :
    (chunkWindows (0 - ((10 : Nat) : Int) * 86400) 0).length = (10 + 6) / 7 :=
  (chunk_coverage 10 0 (by decide) (by decide)).1

/-- C3: the refresh step leaves the store untouched when the symbol has no
quotes, never changes the quotes table, and otherwise sets the symbol's
`lastUpdate` marker to the maximum timestamp among the symbol's quotes. -/
theorem freshness_marker_eq_max (db : DB) (sid : Nat) :
    (maxQuoteTimestamp db sid = none → _update_stock_last_update db sid = db)
    ∧ (_update_stock_last_update db sid).quotes = db.quotes
    ∧ (∀ m, maxQuoteTimestamp db sid = some m →
        ∀ r ∈ (_update_stock_last_update db sid).stocks,
          r.id = sid → r.lastUpdate = some m) := by
  refine ⟨?_, ?_, ?_⟩
  · intro h
    simp [_update_stock_last_update, h]
  · unfold _update_stock_last_update
    split <;> rfl
  · intro m hm r hr hid
    simp only [_update_stock_last_update, hm] at hr
    rcases List.mem_map.mp hr with ⟨r0, hr0, hfr⟩
    subst hfr
    by_cases h0 : r0.id = sid
    · simp [h0]
    · simp only [if_neg h0] at hid ⊢
      exact absurd hid h0

/-- C3 witness: a store with one quote at timestamp 570 for symbol 7. -/
theorem freshness_marker_eq_max_witness :
    ∀ r ∈ (_update_stock_last_update
        { stocks := [⟨7, "AAPL", "Apple", none⟩],
          quotes := [⟨7, "1.00", 570⟩], nextStockId := 8 } 7).stocks,
      r.id = 7 → r.lastUpdate = some 570 :=
  (freshness_marker_eq_max
    { stocks := [⟨7, "AAPL", "Apple", none⟩],
      quotes := [⟨7, "1.00", 570⟩], nextStockId := 8 } 7).2.2 570 (by decide)

/-- C4: a ticker absent from the store whose provider metadata is missing or
carries no symbol raises the unknown-symbol error and performs no store
insert: the store is returned unchanged. -/
theorem unknown_ticker_rejected (env : Env) (ticker : String) (db : DB)
    (habs : lookupStock db ticker = none)
    (hbad : env.info ticker = none
      ∨ ∃ i, env.info ticker = some i ∧ i.symbol = none) :
    _get_stock_id env ticker db = (.error (.unknownSymbol ticker), db) := by
  rcases hbad with h | ⟨i, hi, hs⟩
  · simp [_get_stock_id, habs, h]
  · simp [_get_stock_id, habs, hi, hs]

/-- C4 witness: an unknown ticker against the empty store. -/
theorem unknown_ticker_rejected_witness :
    _get_stock_id envInvalid "ZZZZ" emptyDB
      = (.error (.unknownSymbol "ZZZZ"), emptyDB) :=
  unknown_ticker_rejected envInvalid "ZZZZ" emptyDB (by decide) (Or.inl rfl)

/-- C5 counterexample: the claim that the lookback window is computed once per
run from a single run-start `now` and shared by every ticker is false: with a
clock that advances between tickers, the two tickers of one run use different
windows, because `_fetch_quotes` reads `datetime.now()` per ticker. -/
theorem window_not_once_per_run : ¬ windowOncePerRun envA 1 ["A", "B"] st0 := by
  unfold windowOncePerRun
  decide

/-- C5 (amended): the lookback window is computed once per ticker, from the
`now` read at that ticker's fetch (after symbol resolution succeeds), as
`[now - lookback_days days, now)`. -/
theorem window_once_per_ticker (env : Env) (L : Nat) (ticker : String)
    (st : IngestState)
    (hres : ∃ sid db1, _get_stock_id env ticker st.db = (.ok sid, db1)) :
    ((_fetch_quotes env L ticker st).2).windowsUsed
      = st.windowsUsed
        ++ [(env.clockAt st.tick - (L : Int) * 86400, env.clockAt st.tick)] := by
  obtain ⟨sid, db1, hg⟩ := hres
  unfold _fetch_quotes
  rw [hg]
  dsimp only
  split
  next e st2 heq =>
    have hw := processChunks_windowsUsed env ticker sid
      (chunkWindows (env.clockAt st.tick - (L : Int) * 86400) (env.clockAt st.tick))
      0 0 (windowState st db1
        (env.clockAt st.tick - (L : Int) * 86400) (env.clockAt st.tick))
    rw [heq] at hw
    simpa [windowState] using hw
  next ins skp st2 heq =>
    have hw := processChunks_windowsUsed env ticker sid
      (chunkWindows (env.clockAt st.tick - (L : Int) * 86400) (env.clockAt st.tick))
      0 0 (windowState st db1
        (env.clockAt st.tick - (L : Int) * 86400) (env.clockAt st.tick))
    rw [heq] at hw
    simpa [windowState] using hw

/-- C5 (amended) witness: the first ticker of a run over the empty store. -/
theorem window_once_per_ticker_witness :
    ((_fetch_quotes envA 1 "A" st0).2).windowsUsed
      = st0.windowsUsed
        ++ [(envA.clockAt st0.tick - ((1 : Nat) : Int) * 86400, envA.clockAt st0.tick)] :=
  window_once_per_ticker envA 1 "A" st0 ⟨1, _, rfl⟩

/-- C6: a ticker absent from the store but valid in the provider is registered
as a new row `(ticker, name)` — `name` being the provider's `longName` when
available and the raw ticker otherwise — and resolution returns the identifier
the store assigns to that new row. -/
theorem new_ticker_registered (env : Env) (ticker : String) (db : DB)
    (i : ProviderInfo) (s : String)
    (habs : lookupStock db ticker = none)
    (hinfo : env.info ticker = some i)
    (hsym : i.symbol = some s) :
    _get_stock_id env ticker db =
      (.ok db.nextStockId,
        { db with
          stocks := db.stocks
            ++ [⟨db.nextStockId, ticker, i.longName.getD ticker, none⟩],
          nextStockId := db.nextStockId + 1 }) := by
  simp [_get_stock_id, habs, hinfo, hsym]

/-- C6 witness: registering a ticker with no `longName` names it after
itself. -/
theorem new_ticker_registered_witness :
    _get_stock_id envA "AAPL" emptyDB =
      (.ok emptyDB.nextStockId,
        { emptyDB with
          stocks := emptyDB.stocks ++ [⟨emptyDB.nextStockId, "AAPL", "AAPL", none⟩],
          nextStockId := emptyDB.nextStockId + 1 }) :=
  new_ticker_registered envA "AAPL" emptyDB
    { symbol := some "X", longName := none } "X" (by decide) rfl rfl

/-- C7: every persisted price string is an integer part, a decimal point and
exactly two digits; the rounding is standard (half to even on the exact
value): `150.123449` is written `"150.12"` and `150.999999` is written
`"151.00"`. -/
theorem price_normalization :
    formatPrice (150.123449 : ℚ) = "150.12"
    ∧ formatPrice (150.999999 : ℚ) = "151.00"
    ∧ ∀ q : ℚ, ∃ whole frac : String,
        formatPrice q = whole ++ "." ++ frac
        ∧ frac.length = 2 ∧ frac.data.all Char.isDigit = true := by
  refine ⟨?_, ?_, ?_⟩
  · have e : (⟨150123449, 1000000, by norm_num, by norm_num⟩ : ℚ) = (150.123449 : ℚ) := by
      rw [Rat.mk'_eq_divInt, Rat.divInt_eq_div]
      norm_num
    rw [← e]
    decide
  · have e : (⟨150999999, 1000000, by norm_num, by norm_num⟩ : ℚ) = (150.999999 : ℚ) := by
      rw [Rat.mk'_eq_divInt, Rat.divInt_eq_div]
      norm_num
    rw [← e]
    decide
  · intro q
    refine ⟨toString ((roundCentsHalfToEven q).toNat / 100),
      pad2 ((roundCentsHalfToEven q).toNat % 100), rfl, ?_, ?_⟩
    · exact (pad2_good ((roundCentsHalfToEven q).toNat % 100)
        (Nat.mod_lt _ (by norm_num))).1
    · exact (pad2_good ((roundCentsHalfToEven q).toNat % 100)
        (Nat.mod_lt _ (by norm_num))).2

/-- C8: if the tickers before position `k` all succeed and ticker `k` raises
any error, the whole run stops with exactly the state produced by that
failure: no ticker after position `k` is resolved, fetched, written or
refreshed, whatever those tickers are. -/
theorem failure_aborts_remaining_tickers (env : Env) (L : Nat)
    (pre : List String) (t : String) (rest : List String)
    (st st1 st2 : IngestState) (e : IngestError)
    (hpre : runTickers env L pre st = (.ok (), st1))
    (hfail : _fetch_quotes env L t st1 = (.error e, st2)) :
    runTickers env L (pre ++ t :: rest) st = (.error e, st2) := by
  induction pre generalizing st with
  | nil =>
    simp only [runTickers, Prod.mk.injEq, true_and] at hpre
    subst hpre
    simp only [List.nil_append, runTickers, hfail]
  | cons p ps ih =>
    simp only [runTickers] at hpre
    cases hf : _fetch_quotes env L p st with
    | mk res stx =>
      rw [hf] at hpre
      cases res with
      | error e2 => simp at hpre
      | ok u =>
        have := ih stx hpre
        simp only [List.cons_append, runTickers, hf]
        exact this

/-- C8 witness: with an invalid first ticker the second ticker is never
processed. -/
theorem failure_aborts_remaining_tickers_witness :
    runTickers envInvalid 1 ([] ++ "A" :: ["B"]) st0
      = (.error (.unknownSymbol "A"), st0) :=
  failure_aborts_remaining_tickers envInvalid 1 [] "A" ["B"] st0 st0 st0
    (.unknownSymbol "A") rfl rfl

/-- C9: whenever the connection is opened, the run closes it exactly once,
both on success and when a failure aborts the run (`finally` semantics). -/
theorem connection_closed_exactly_once (env : Env) (L : Nat)
    (tickers : List String) (st : IngestState)
    (hconn : env.connectOk = true) :
    ((run env L tickers st).2.2).count .connClosed = 1 := by
  unfold run
  rw [hconn]
  simp only [if_true]
  cases hr : runTickers env L tickers st with
  | mk res st1 => cases res <;> rfl

/-- C9 witness: the empty run over a healthy connection. -/
theorem connection_closed_exactly_once_witness :
    ((run envA 1 [] st0).2.2).count .connClosed = 1 :=
  connection_closed_exactly_once envA 1 [] st0 rfl

/-- C10: when a ticker is processed without error, its recorded
inserted-count plus skipped-count equals the total number of points the
fetcher yielded over all chunks of that ticker's window. -/
theorem inserted_plus_skipped_accounts_points (env : Env) (L : Nat)
    (ticker : String) (st st1 : IngestState)
    (h : _fetch_quotes env L ticker st = (.ok (), st1)) :
    ∃ ins skp,
      getAssoc st1.quotesInserted ticker = some ins
      ∧ getAssoc st1.quotesSkipped ticker = some skp
      ∧ ins + skp
          = ((chunkWindows (env.clockAt st.tick - (L : Int) * 86400)
              (env.clockAt st.tick)).map (downloadLen env ticker)).sum := by
  unfold _fetch_quotes at h
  split at h
  next e db1 heq => simp at h
  next sid db1 heq =>
    dsimp only at h
    split at h
    next e st2 heq2 => simp at h
    next ins skp st2 heq2 =>
      simp only [Prod.mk.injEq, true_and] at h
      subst h
      refine ⟨ins, skp, ?_, ?_, ?_⟩
      · exact getAssoc_setAssoc _ _ _
      · exact getAssoc_setAssoc _ _ _
      · have := processChunks_ok_count env ticker sid _ 0 0 _ ins skp st2 heq2
        simpa using this

/-- C10 witness: a ticker processed over an empty provider result. -/
theorem inserted_plus_skipped_accounts_points_witness :
    ∃ ins skp,
      getAssoc ((_fetch_quotes envA 1 "A" st0).2).quotesInserted "A" = some ins
      ∧ getAssoc ((_fetch_quotes envA 1 "A" st0).2).quotesSkipped "A" = some skp
      ∧ ins + skp
          = ((chunkWindows (envA.clockAt st0.tick - ((1 : Nat) : Int) * 86400)
              (envA.clockAt st0.tick)).map (downloadLen envA "A")).sum :=
  inserted_plus_skipped_accounts_points envA 1 "A" st0
    ((_fetch_quotes envA 1 "A" st0).2) rfl

end PyQuote
